import Mathlib

/-!
Shallow embedding of the `throttle` crate (`src/lib.rs`).

Monotonic instants and durations are modelled as `Nat`.  `Instant::elapsed`
saturates at zero when the instant lies in the future, matching truncated
`Nat` subtraction.  The `VecDeque<Instant>` is modelled as a `List Nat` whose
head is the front of the deque (`front`/`pop_front` act on the head,
`push_back` appends at the tail).
-/

/-- The result of `Throttle::accept`.  `ok` is `Ok(())`, `err r` is
`Err(instant)` carrying the retry instant, and `unwrapNone` marks the panic
that `self.deque.front().unwrap()` raises when the deque is empty. -/
inductive AcceptResult where
  | ok : AcceptResult
  | err : Nat → AcceptResult
  | unwrapNone : AcceptResult
deriving DecidableEq, Repr

/-- The `Throttle` struct: `timeout` is the window duration, `threshold` the
capacity, `deque` the admission history (front at the head of the list). -/
structure Throttle where
  timeout : Nat
  threshold : Nat
  deque : List Nat
deriving DecidableEq, Repr

namespace Throttle

/-- `Throttle::new`: starts with an empty deque (`Default::default()`). -/
def new (timeout threshold : Nat) : Throttle :=
  { timeout := timeout, threshold := threshold, deque := [] }

/-- The loop body of `Throttle::flush`: while the front exists and its
elapsed time (`now - first`) is at least `timeout`, pop it; otherwise stop. -/
def flushFront (timeout now : Nat) : List Nat → List Nat
  | [] => []
  | first :: rest =>
      if timeout ≤ now - first then flushFront timeout now rest
      else first :: rest

/-- `Throttle::flush` as a state transformer at instant `now`. -/
def flush (th : Throttle) (now : Nat) : Throttle :=
  { th with deque := flushFront th.timeout now th.deque }

/-- `Throttle::size`: flushes, then returns the deque length (paired with the
mutated state). -/
def size (th : Throttle) (now : Nat) : Nat × Throttle :=
  let th := th.flush now
  (th.deque.length, th)

/-- `Throttle::available`: `self.size() < self.threshold`. -/
def available (th : Throttle) (now : Nat) : Bool × Throttle :=
  let p := th.size now
  (decide (p.1 < th.threshold), p.2)

/-- `Throttle::accept`: flush; if `len >= threshold` return
`Err(front.unwrap() + timeout)` (panicking if the deque is empty), else push
`now` at the back and return `Ok(())`. -/
def accept (th : Throttle) (now : Nat) : AcceptResult × Throttle :=
  let th := th.flush now
  if th.threshold ≤ th.deque.length then
    match th.deque.head? with
    | some first => (AcceptResult.err (first + th.timeout), th)
    | none => (AcceptResult.unwrapNone, th)
  else
    (AcceptResult.ok, { th with deque := th.deque ++ [now] })

/-- A public operation of the throttle. -/
inductive Op where
  | size : Op
  | available : Op
  | accept : Op
deriving DecidableEq, Repr

/-- State after running one public operation at a given instant. -/
def step (th : Throttle) : Op × Nat → Throttle
  | (Op.size, t) => (th.size t).2
  | (Op.available, t) => (th.available t).2
  | (Op.accept, t) => (th.accept t).2

/-- State after running a sequence of timed public operations. -/
def run (th : Throttle) : List (Op × Nat) → Throttle
  | [] => th
  | e :: rest => (th.step e).run rest

/-- The instants of a trace are non-decreasing and bounded below by `t0`
(monotonic clock). -/
def chron (t0 : Nat) : List (Op × Nat) → Bool
  | [] => true
  | (_, t) :: rest => decide (t0 ≤ t) && chron t rest

/-- Results of `n` consecutive `accept` calls at the same instant, together
with the final state. -/
def acceptN (th : Throttle) (t : Nat) : Nat → List AcceptResult × Throttle
  | 0 => ([], th)
  | n + 1 =>
      ((th.accept t).1 :: ((th.accept t).2.acceptN t n).1,
        ((th.accept t).2.acceptN t n).2)

/-- No `accept` call inside the trace succeeds when run from `th`. -/
def noSuccess (th : Throttle) : List (Op × Nat) → Bool
  | [] => true
  | (op, t) :: rest =>
      (match op with
        | Op.accept => decide ((th.accept t).1 ≠ AcceptResult.ok)
        | _ => true) && (th.step (op, t)).noSuccess rest

/-- The chronology invariant carried through a trace: the deque is sorted and
every entry is at most `t0`, the latest instant seen so far. -/
def SortedUpTo (th : Throttle) (t0 : Nat) : Prop :=
  th.deque.Sorted (· ≤ ·) ∧ ∀ x ∈ th.deque, x ≤ t0

/-! ### Helper lemmas about `flushFront` -/

theorem flushFront_eq_dropWhile (w now : Nat) (l : List Nat) :
    flushFront w now l = l.dropWhile (fun x => decide (w ≤ now - x)) := by
  induction l with
  | nil => rfl
  | cons first rest ih =>
      by_cases h : w ≤ now - first <;> simp [flushFront, List.dropWhile, h, ih]

theorem flushFront_suffix (w now : Nat) (l : List Nat) :
    (flushFront w now l).IsSuffix l := by
  induction l with
  | nil => exact List.suffix_refl _
  | cons first rest ih =>
      by_cases h : w ≤ now - first
      · simpa [flushFront, h] using ih.trans (List.suffix_cons first rest)
      · simp [flushFront, h]

theorem flushFront_sublist (w now : Nat) (l : List Nat) :
    (flushFront w now l).Sublist l :=
  (flushFront_suffix w now l).sublist

theorem flushFront_idem (w now : Nat) (l : List Nat) :
    flushFront w now (flushFront w now l) = flushFront w now l := by
  induction l with
  | nil => rfl
  | cons first rest ih =>
      by_cases h : w ≤ now - first <;> simp [flushFront, h, ih]

theorem flushFront_all_live (w now : Nat) (l : List Nat)
    (hs : l.Sorted (· ≤ ·)) : ∀ x ∈ flushFront w now l, now - x < w := by
  induction l with
  | nil => simp [flushFront]
  | cons first rest ih =>
      rw [List.sorted_cons] at hs
      by_cases h : w ≤ now - first
      · simpa [flushFront, h] using ih hs.2
      · intro x hx
        rw [flushFront, if_neg h] at hx
        rcases List.mem_cons.1 hx with rfl | hx
        · omega
        · have hfx : first ≤ x := hs.1 x hx
          omega

theorem flushFront_expired (w now : Nat) (l : List Nat) :
    ∀ x ∈ l.takeWhile (fun x => decide (w ≤ now - x)), w ≤ now - x := by
  intro x hx
  simpa using List.mem_takeWhile_imp hx

theorem flushFront_timeout_zero (now : Nat) (l : List Nat) :
    flushFront 0 now l = [] := by
  induction l with
  | nil => rfl
  | cons first rest ih => simp [flushFront, ih]

theorem flushFront_replicate_now (w now k : Nat) (hw : 0 < w) :
    flushFront w now (List.replicate k now) = List.replicate k now := by
  cases k with
  | zero => rfl
  | succ n => simp [List.replicate_succ, flushFront, Nat.sub_self, Nat.not_le.2 hw]

theorem sorted_append_singleton (l : List Nat) (t : Nat)
    (hs : l.Sorted (· ≤ ·)) (hb : ∀ x ∈ l, x ≤ t) :
    (l ++ [t]).Sorted (· ≤ ·) := by
  refine List.pairwise_append.2 ⟨hs, List.sorted_singleton t, ?_⟩
  intro a ha b hb'
  rcases List.mem_singleton.1 hb' with rfl
  exact hb a ha

/-! ### Frame lemmas: operations only touch `deque` -/

theorem accept_timeout (th : Throttle) (t : Nat) :
    ((th.accept t).2).timeout = th.timeout := by
  unfold accept
  dsimp only [flush]
  split
  · split <;> rfl
  · rfl

theorem accept_threshold (th : Throttle) (t : Nat) :
    ((th.accept t).2).threshold = th.threshold := by
  unfold accept
  dsimp only [flush]
  split
  · split <;> rfl
  · rfl

theorem step_timeout (th : Throttle) (e : Op × Nat) :
    (th.step e).timeout = th.timeout := by
  obtain ⟨op, t⟩ := e
  cases op with
  | size => rfl
  | available => rfl
  | accept => exact accept_timeout th t

theorem step_threshold (th : Throttle) (e : Op × Nat) :
    (th.step e).threshold = th.threshold := by
  obtain ⟨op, t⟩ := e
  cases op with
  | size => rfl
  | available => rfl
  | accept => exact accept_threshold th t

theorem run_timeout (ops : List (Op × Nat)) : ∀ th : Throttle,
    (th.run ops).timeout = th.timeout := by
  induction ops with
  | nil => intro th; rfl
  | cons e rest ih => intro th; rw [run, ih, step_timeout]

theorem run_threshold (ops : List (Op × Nat)) : ∀ th : Throttle,
    (th.run ops).threshold = th.threshold := by
  induction ops with
  | nil => intro th; rfl
  | cons e rest ih => intro th; rw [run, ih, step_threshold]

/-! ### Shape of the state after one operation -/

theorem size_eq (th : Throttle) (t : Nat) :
    th.size t = ((th.flush t).deque.length, th.flush t) := rfl

theorem available_eq (th : Throttle) (t : Nat) :
    th.available t = (decide ((th.flush t).deque.length < th.threshold), th.flush t) := rfl

theorem accept_full (th : Throttle) (t : Nat)
    (h : th.threshold ≤ (th.flush t).deque.length) :
    th.accept t =
      (match (th.flush t).deque.head? with
        | some first => (AcceptResult.err (first + th.timeout), th.flush t)
        | none => (AcceptResult.unwrapNone, th.flush t)) := by
  unfold accept
  dsimp only [flush] at h ⊢
  rw [if_pos h]

theorem accept_spare (th : Throttle) (t : Nat)
    (h : (th.flush t).deque.length < th.threshold) :
    th.accept t = (AcceptResult.ok, { th.flush t with deque := (th.flush t).deque ++ [t] }) := by
  unfold accept
  dsimp only [flush] at h ⊢
  rw [if_neg (Nat.not_le.2 h)]

theorem accept_snd_of_ne_ok (th : Throttle) (t : Nat)
    (h : (th.accept t).1 ≠ AcceptResult.ok) : (th.accept t).2 = th.flush t := by
  by_cases hc : th.threshold ≤ (th.flush t).deque.length
  · rw [accept_full th t hc]
    cases (th.flush t).deque.head? <;> rfl
  · rw [accept_spare th t (Nat.not_le.1 hc)] at h
    exact absurd rfl h

theorem accept_err_elim (th : Throttle) (t r : Nat) (th1 : Throttle)
    (h : th.accept t = (AcceptResult.err r, th1)) :
    th1 = th.flush t ∧ th.threshold ≤ (th.flush t).deque.length ∧
      ∃ tl, (th.flush t).deque = (r - th.timeout) :: tl ∧ r = (r - th.timeout) + th.timeout := by
  by_cases hc : th.threshold ≤ (th.flush t).deque.length
  · rw [accept_full th t hc] at h
    cases hd : (th.flush t).deque with
    | nil => rw [hd] at h; simp at h
    | cons first tl =>
        rw [hd] at h
        simp only [List.head?_cons] at h
        have h1 : AcceptResult.err (first + th.timeout) = AcceptResult.err r :=
          congrArg Prod.fst h
        have h2 : th.flush t = th1 := congrArg Prod.snd h
        have hfr : first + th.timeout = r := by injection h1
        refine ⟨h2.symm, ?_, tl, ?_, ?_⟩
        · rw [hd] at hc
          exact hc
        · congr 1
          omega
        · omega
  · rw [accept_spare th t (Nat.not_le.1 hc)] at h
    simp at h

/-! ### Invariants preserved by the public operations -/

theorem step_deque_length (th : Throttle) (e : Op × Nat)
    (h : th.deque.length ≤ th.threshold) :
    (th.step e).deque.length ≤ th.threshold := by
  obtain ⟨op, t⟩ := e
  have hflush : (th.flush t).deque.length ≤ th.deque.length :=
    (flushFront_sublist th.timeout t th.deque).length_le
  cases op with
  | size => exact le_trans hflush h
  | available => exact le_trans hflush h
  | accept =>
      show ((th.accept t).2).deque.length ≤ th.threshold
      by_cases hc : th.threshold ≤ (th.flush t).deque.length
      · rw [accept_full th t hc]
        cases (th.flush t).deque.head? <;> exact le_trans hflush h
      · rw [accept_spare th t (Nat.not_le.1 hc)]
        have := Nat.not_le.1 hc
        simp only [List.length_append, List.length_singleton]
        omega

theorem run_deque_length (ops : List (Op × Nat)) : ∀ th : Throttle,
    th.deque.length ≤ th.threshold → (th.run ops).deque.length ≤ (th.run ops).threshold := by
  induction ops with
  | nil => intro th h; exact h
  | cons e rest ih =>
      intro th h
      rw [run]
      exact ih (th.step e) ((step_threshold th e).symm ▸ step_deque_length th e h)

theorem flush_sortedUpTo (th : Throttle) (t t0 : Nat) (h : th.SortedUpTo t0) :
    (th.flush t).SortedUpTo t0 := by
  obtain ⟨hs, hb⟩ := h
  exact ⟨List.Pairwise.sublist (flushFront_sublist th.timeout t th.deque) hs,
    fun x hx => hb x ((flushFront_sublist th.timeout t th.deque).subset hx)⟩

theorem step_sortedUpTo (th : Throttle) (op : Op) (t t0 : Nat)
    (h : th.SortedUpTo t0) (ht : t0 ≤ t) : (th.step (op, t)).SortedUpTo t := by
  have hflush : (th.flush t).SortedUpTo t := by
    obtain ⟨hs, hb⟩ := flush_sortedUpTo th t t0 h
    exact ⟨hs, fun x hx => le_trans (hb x hx) ht⟩
  cases op with
  | size => exact hflush
  | available => exact hflush
  | accept =>
      show ((th.accept t).2).SortedUpTo t
      by_cases hc : th.threshold ≤ (th.flush t).deque.length
      · rw [accept_full th t hc]
        cases (th.flush t).deque.head? <;> exact hflush
      · rw [accept_spare th t (Nat.not_le.1 hc)]
        obtain ⟨hs, hb⟩ := hflush
        constructor
        · exact sorted_append_singleton _ t hs hb
        · intro x hx
          rcases List.mem_append.1 hx with hx | hx
          · exact hb x hx
          · exact le_of_eq (List.mem_singleton.1 hx)

theorem run_sortedUpTo (ops : List (Op × Nat)) : ∀ (th : Throttle) (t0 : Nat),
    th.SortedUpTo t0 → chron t0 ops = true →
    ∃ t1, (th.run ops).SortedUpTo t1 := by
  induction ops with
  | nil => intro th t0 h _; exact ⟨t0, h⟩
  | cons e rest ih =>
      obtain ⟨op, t⟩ := e
      intro th t0 h hchron
      rw [chron, Bool.and_eq_true, decide_eq_true_eq] at hchron
      exact ih (th.step (op, t)) t (step_sortedUpTo th op t t0 h hchron.1) hchron.2

/-! ### Lemmas about repeated `accept` calls and success-free traces -/

theorem acceptN_add (t : Nat) : ∀ (a : Nat) (b : Nat) (th : Throttle),
    th.acceptN t (a + b) =
      ((th.acceptN t a).1 ++ ((th.acceptN t a).2.acceptN t b).1,
        ((th.acceptN t a).2.acceptN t b).2) := by
  intro a
  induction a with
  | zero => intro b th; simp [acceptN]
  | succ n ih =>
      intro b th
      have hnb : n + 1 + b = (n + b) + 1 := by omega
      rw [hnb, acceptN, acceptN, ih b (th.accept t).2]
      simp

theorem accept_fresh (w N k t : Nat) (hw : 0 < w) (hk : k < N) :
    Throttle.accept ⟨w, N, List.replicate k t⟩ t
      = (AcceptResult.ok, ⟨w, N, List.replicate (k + 1) t⟩) := by
  have hf : Throttle.flush ⟨w, N, List.replicate k t⟩ t = ⟨w, N, List.replicate k t⟩ := by
    simp [flush, flushFront_replicate_now w t k hw]
  have hlen : (Throttle.flush ⟨w, N, List.replicate k t⟩ t).deque.length
      < (Throttle.threshold ⟨w, N, List.replicate k t⟩) := by
    rw [hf]
    simpa using hk
  rw [accept_spare _ t hlen, hf]
  simp [List.replicate_succ']

theorem acceptN_fill (w N t : Nat) (hw : 0 < w) : ∀ (m k : Nat), k + m ≤ N →
    Throttle.acceptN ⟨w, N, List.replicate k t⟩ t m
      = (List.replicate m AcceptResult.ok, ⟨w, N, List.replicate (k + m) t⟩) := by
  intro m
  induction m with
  | zero => intro k hk; simp [acceptN]
  | succ n ih =>
      intro k hk
      rw [acceptN, accept_fresh w N k t hw (by omega), ih (k + 1) (by omega)]
      have hkn : k + 1 + n = k + (n + 1) := by omega
      simp [hkn, List.replicate_succ]

theorem run_noSuccess_suffix (ops : List (Op × Nat)) : ∀ th : Throttle,
    th.noSuccess ops = true → ((th.run ops).deque).IsSuffix th.deque := by
  induction ops with
  | nil => intro th _; exact List.suffix_refl _
  | cons e rest ih =>
      obtain ⟨op, t⟩ := e
      intro th h
      cases op with
      | size =>
          simp only [noSuccess, Bool.true_and] at h
          exact (ih _ h).trans (flushFront_suffix th.timeout t th.deque)
      | available =>
          simp only [noSuccess, Bool.true_and] at h
          exact (ih _ h).trans (flushFront_suffix th.timeout t th.deque)
      | accept =>
          simp only [noSuccess, Bool.and_eq_true, decide_eq_true_eq] at h
          refine (ih _ h.2).trans ?_
          show ((th.accept t).2).deque.IsSuffix th.deque
          rw [accept_snd_of_ne_ok th t h.1]
          exact flushFront_suffix th.timeout t th.deque

theorem flush_of_deque_empty (th : Throttle) (t : Nat) (hd : th.deque = []) :
    th.flush t = th := by
  obtain ⟨w, c, d⟩ := th
  simp only at hd
  subst hd
  rfl

theorem run_threshold_zero_deque (ops : List (Op × Nat)) : ∀ th : Throttle,
    th.threshold = 0 → th.deque = [] → (th.run ops).deque = [] := by
  induction ops with
  | nil => intro th _ hd; exact hd
  | cons e rest ih =>
      obtain ⟨op, t⟩ := e
      intro th hthr hd
      apply ih (th.step (op, t)) (by rw [step_threshold]; exact hthr)
      have hf : th.flush t = th := flush_of_deque_empty th t hd
      cases op with
      | size =>
          show (th.flush t).deque = []
          rw [hf, hd]
      | available =>
          show (th.flush t).deque = []
          rw [hf, hd]
      | accept =>
          show ((th.accept t).2).deque = []
          rw [accept_full th t (by rw [hf, hd, hthr]; exact Nat.le_refl 0), hf, hd]
          simpa using hd

/-! ### Claim theorems -/

/-- C1: For a throttle constructed with `capacity = 0`, over every operation
sequence the history stays empty, `Size()` returns `0` and `Available()`
returns `false` at every instant — but the claim that every `Accept` call
rejects *without the implementation failing* is false: `accept` reaches
`self.deque.front().unwrap()` on the always-empty deque, i.e. it panics
(`unwrapNone`) instead of returning the failure result. -/
theorem c1_capacity_zero (w : Nat) (ops : List (Op × Nat)) (t : Nat) :
    ((Throttle.new w 0).run ops).deque = [] ∧
    ((Throttle.new w 0).run ops).size t = (0, (Throttle.new w 0).run ops) ∧
    ((Throttle.new w 0).run ops).available t = (false, (Throttle.new w 0).run ops) ∧
    ((Throttle.new w 0).run ops).accept t =
      (AcceptResult.unwrapNone, (Throttle.new w 0).run ops) := by
  have hdeq : ((Throttle.new w 0).run ops).deque = [] :=
    run_threshold_zero_deque ops _ rfl rfl
  have hthr : ((Throttle.new w 0).run ops).threshold = 0 := run_threshold ops _
  have hf := flush_of_deque_empty _ t hdeq
  refine ⟨hdeq, ?_, ?_, ?_⟩
  · rw [size_eq, hf, hdeq]
    simp
  · rw [available_eq, hf, hdeq, hthr]
    simp
  · rw [accept_full _ t (by rw [hf, hdeq, hthr]; exact Nat.le_refl 0), hf, hdeq]
    simp

/-- C2: For capacity ≥ 1, `accept` first compacts; if the live count after
compaction is ≥ capacity it returns `Err` carrying the current oldest live
timestamp plus the window (recomputed from the front of the just-flushed
history, never cached) and leaves the history at its flushed value;
otherwise it appends `now` at the back and returns `Ok`. -/
theorem c2_accept_behaviour (th : Throttle) (now : Nat) (hcap : 1 ≤ th.threshold) :
    (th.threshold ≤ (th.flush now).deque.length →
      (th.flush now).deque ≠ [] ∧
      th.accept now =
        (AcceptResult.err ((th.flush now).deque.headD 0 + th.timeout), th.flush now)) ∧
    ((th.flush now).deque.length < th.threshold →
      th.accept now =
        (AcceptResult.ok, { th.flush now with deque := (th.flush now).deque ++ [now] })) := by
  constructor
  · intro hfull
    cases hd : (th.flush now).deque with
    | nil =>
        rw [hd] at hfull
        simp at hfull
        exact absurd hcap (by omega)
    | cons first tl =>
        constructor
        · simp
        · rw [accept_full th now hfull, hd]
          simp
  · intro hspare
    exact accept_spare th now hspare

/-- C3: On a history sorted oldest-first, compaction removes exactly the
prefix of entries with age ≥ window (equality counts as expired), stops at
the first non-expired entry, and leaves all remaining entries in place, all
of which are strictly younger than the window. -/
theorem c3_flush_prefix_trim (w now : Nat) (l : List Nat) (hs : l.Sorted (· ≤ ·)) :
    flushFront w now l = l.dropWhile (fun x => decide (w ≤ now - x)) ∧
    l.takeWhile (fun x => decide (w ≤ now - x)) ++ flushFront w now l = l ∧
    (∀ x ∈ l.takeWhile (fun x => decide (w ≤ now - x)), w ≤ now - x) ∧
    (∀ x ∈ flushFront w now l, now - x < w) := by
  refine ⟨flushFront_eq_dropWhile w now l, ?_, flushFront_expired w now l,
    flushFront_all_live w now l hs⟩
  rw [flushFront_eq_dropWhile]
  exact List.takeWhile_append_dropWhile _ _

/-- C4: Starting from construction, along every chronological sequence of
public operations the history stays sorted in non-decreasing order (oldest
at the front). -/
theorem c4_history_sorted (w c : Nat) (ops : List (Op × Nat)) (h : chron 0 ops = true) :
    ((Throttle.new w c).run ops).deque.Sorted (· ≤ ·) := by
  obtain ⟨t1, hinv⟩ :=
    run_sortedUpTo ops (Throttle.new w c) 0 ⟨List.sorted_nil, by simp [new]⟩ h
  exact hinv.1

/-- C5: After every sequence of public operations from a freshly constructed
throttle, the history length is at most the capacity. -/
theorem c5_length_le_capacity (w c : Nat) (ops : List (Op × Nat)) :
    ((Throttle.new w c).run ops).deque.length ≤ c := by
  have h := run_deque_length ops (Throttle.new w c) (by simp [new])
  rw [run_threshold ops (Throttle.new w c)] at h
  exact h

/-- C6 (counterexample): with `window = 0` and `capacity = 1`, two `Accept`
calls at the same instant both succeed — the `(N+1)`-th call does not fail,
refuting the claim for throttles whose window is zero. -/
theorem c6_counterexample :
    (Throttle.acceptN (Throttle.new 0 1) 0 2).1 = [AcceptResult.ok, AcceptResult.ok] := by
  rfl

/-- C6 (amended): for every throttle with *positive* window and capacity `N`,
starting from an empty history, `N` consecutive `Accept` calls with no
elapsed time all succeed and the `(N+1)`-th does not succeed (for `N ≥ 1` it
returns the failure carrying `RetryAt = t + window`; for `N = 0` it hits the
capacity-zero `unwrap` panic instead of returning). -/
theorem c6_amended_first_n_accepts (w N t : Nat) (hw : 0 < w) :
    (Throttle.acceptN (Throttle.new w N) t (N + 1)).1
      = List.replicate N AcceptResult.ok ++
        [if N = 0 then AcceptResult.unwrapNone else AcceptResult.err (t + w)] := by
  rw [acceptN_add t N 1 (Throttle.new w N)]
  have h0 : Throttle.acceptN (Throttle.new w N) t N
      = (List.replicate N AcceptResult.ok, ⟨w, N, List.replicate N t⟩) := by
    have h := acceptN_fill w N t hw N 0 (by omega)
    simpa [Throttle.new] using h
  rw [h0]
  have hf : Throttle.flush ⟨w, N, List.replicate N t⟩ t = ⟨w, N, List.replicate N t⟩ := by
    simp [Throttle.flush, flushFront_replicate_now w t N hw]
  have hfull : Throttle.threshold ⟨w, N, List.replicate N t⟩
      ≤ (Throttle.flush ⟨w, N, List.replicate N t⟩ t).deque.length := by
    rw [hf]
    simp
  cases N with
  | zero =>
      simp only [acceptN]
      rw [accept_full _ t hfull, hf]
      simp
  | succ n =>
      simp only [acceptN]
      rw [accept_full _ t hfull, hf]
      simp [List.replicate_succ]

/-- C7: capacity ≥ 1; after `accept` fails at `t1` returning `RetryAt = r`,
if time advances to any `t2 ≥ r` (equality included) and no intervening
`accept` succeeds, the next `accept` call succeeds.  The starting state
satisfies the reachable-state invariants (sorted history of length at most
the capacity). -/
theorem c7_retry_boundary (th th1 : Throttle) (t1 t2 r : Nat) (ops : List (Op × Nat))
    (_hcap : 1 ≤ th.threshold)
    (hsorted : th.deque.Sorted (· ≤ ·))
    (hlen : th.deque.length ≤ th.threshold)
    (hacc : th.accept t1 = (AcceptResult.err r, th1))
    (hnos : th1.noSuccess ops = true)
    (ht : r ≤ t2) :
    ((th1.run ops).accept t2).1 = AcceptResult.ok := by
  obtain ⟨hth1, hfull, tl, hd1, hr⟩ := accept_err_elim th t1 r th1 hacc
  subst hth1
  have hd1sorted : ((th.flush t1).deque).Sorted (· ≤ ·) :=
    List.Pairwise.sublist (flushFront_sublist th.timeout t1 th.deque) hsorted
  have hd1len : (th.flush t1).deque.length ≤ th.threshold :=
    le_trans (flushFront_sublist th.timeout t1 th.deque).length_le hlen
  have hsuffix : ((th.flush t1).run ops).deque.IsSuffix (th.flush t1).deque :=
    run_noSuccess_suffix ops (th.flush t1) hnos
  have htmo : ((th.flush t1).run ops).timeout = th.timeout := run_timeout ops (th.flush t1)
  have hthr : ((th.flush t1).run ops).threshold = th.threshold := run_threshold ops (th.flush t1)
  set th2 := (th.flush t1).run ops with hth2
  have hs2 : th2.deque.Sorted (· ≤ ·) := List.Pairwise.sublist hsuffix.sublist hd1sorted
  have hlive := flushFront_all_live th2.timeout t2 th2.deque hs2
  have hsubl : (flushFront th2.timeout t2 th2.deque).Sublist ((r - th.timeout) :: tl) := by
    have h := (flushFront_sublist th2.timeout t2 th2.deque).trans hsuffix.sublist
    rwa [hd1] at h
  have hnotmem : (r - th.timeout) ∉ flushFront th2.timeout t2 th2.deque := by
    intro hmem
    have h1 := hlive _ hmem
    rw [htmo] at h1
    omega
  have hsubtl : (flushFront th2.timeout t2 th2.deque).Sublist tl := by
    rcases List.sublist_cons_iff.1 hsubl with h | ⟨rest, hrest, _⟩
    · exact h
    · exact absurd (by rw [hrest]; exact List.mem_cons_self _ _) hnotmem
  have hlencons : tl.length + 1 = (th.flush t1).deque.length := by
    rw [hd1]
    simp
  have hfinal : (th2.flush t2).deque.length < th2.threshold := by
    have h1 := hsubtl.length_le
    rw [hthr]
    show (flushFront th2.timeout t2 th2.deque).length < th.threshold
    omega
  rw [accept_spare th2 t2 hfinal]

/-- C8: with no elapsed time and no intervening `Accept`, repeated `Size()`
or `Available()` calls return the same value every time and leave the state
unchanged after the first call; both observations leave the same state. -/
theorem c8_observation_idempotent (th : Throttle) (t : Nat) :
    ((th.size t).2).size t = th.size t ∧
    ((th.available t).2).available t = th.available t ∧
    (th.available t).2 = (th.size t).2 := by
  have hidem : (th.flush t).flush t = th.flush t := by
    simp [flush, flushFront_idem]
  refine ⟨?_, ?_, rfl⟩
  · show (th.flush t).size t = th.size t
    rw [size_eq (th.flush t) t, size_eq th t, hidem]
  · show (th.flush t).available t = th.available t
    rw [available_eq (th.flush t) t, available_eq th t, hidem]
    rfl

/-- C9: `window` (`timeout`) and `capacity` (`threshold`) hold exactly the
constructor arguments after every sequence of public operations; only the
`deque` field ever changes. -/
theorem c9_config_immutable (w c : Nat) (ops : List (Op × Nat)) :
    ((Throttle.new w c).run ops).timeout = w ∧ ((Throttle.new w c).run ops).threshold = c :=
  ⟨run_timeout ops (Throttle.new w c), run_threshold ops (Throttle.new w c)⟩

/-- C10: construction accepts `window = 0`; for any state of such a throttle
with capacity ≥ 1, compaction empties the history on every operation, so
`Size()` returns 0, `Available()` returns true, and every `Accept` succeeds
no matter how many calls preceded it. -/
theorem c10_zero_window (th : Throttle) (t : Nat)
    (hw : th.timeout = 0) (hc : 1 ≤ th.threshold) :
    th.size t = (0, { th with deque := [] }) ∧
    th.available t = (true, { th with deque := [] }) ∧
    th.accept t = (AcceptResult.ok, { th with deque := [t] }) := by
  have hf : th.flush t = { th with deque := [] } := by
    simp [flush, hw, flushFront_timeout_zero]
  refine ⟨?_, ?_, ?_⟩
  · rw [size_eq, hf]
    simp
  · rw [available_eq, hf]
    simp
    omega
  · have hsp : (th.flush t).deque.length < th.threshold := by
      rw [hf]
      simp
      omega
    rw [accept_spare th t hsp, hf]
    simp

/-! ### Witnesses -/

/-- Witness for C2 at `timeout = 3`, `threshold = 1`, history `[0]`,
call instant `1`: the full branch returns `Err(0 + 3)`. -/
theorem c2_witness : Throttle.accept ⟨3, 1, [0]⟩ 1 = (AcceptResult.err 3, ⟨3, 1, [0]⟩) := by
  have h := ((c2_accept_behaviour ⟨3, 1, [0]⟩ 1 (by decide)).1 (by decide)).2
  exact h

/-- Witness for C3 on the sorted history `[1, 3, 4, 9]` at `window = 2`,
instant `5`. -/
theorem c3_witness :
    Throttle.flushFront 2 5 [1, 3, 4, 9]
      = List.dropWhile (fun x => decide (2 ≤ 5 - x)) [1, 3, 4, 9] :=
  (c3_flush_prefix_trim 2 5 [1, 3, 4, 9] (by decide)).1

/-- Witness for C4 on a concrete chronological trace. -/
theorem c4_witness :
    ((Throttle.new 3 2).run
      [(Op.accept, 1), (Op.accept, 2), (Op.size, 3), (Op.accept, 7)]).deque.Sorted (· ≤ ·) :=
  c4_history_sorted 3 2 [(Op.accept, 1), (Op.accept, 2), (Op.size, 3), (Op.accept, 7)]
    (by decide)

/-- Witness for the amended C6 at `window = 2`, `capacity = 1`, instant `0`. -/
theorem c6_amended_witness :
    (Throttle.acceptN (Throttle.new 2 1) 0 2).1
      = List.replicate 1 AcceptResult.ok ++
        [if 1 = 0 then AcceptResult.unwrapNone else AcceptResult.err (0 + 2)] :=
  c6_amended_first_n_accepts 2 1 0 (by decide)

/-- Witness for C7: `timeout = 2`, `threshold = 1`, history `[0]`; the
`accept` at `t = 1` fails with `RetryAt = 2`, and the `accept` at `t = 2`
succeeds. -/
theorem c7_witness : ((Throttle.run ⟨2, 1, [0]⟩ []).accept 2).1 = AcceptResult.ok :=
  c7_retry_boundary ⟨2, 1, [0]⟩ ⟨2, 1, [0]⟩ 1 2 2 [] (by decide) (by decide) (by decide)
    (by decide) (by decide) (by decide)

/-- Witness for C10 at `window = 0`, `capacity = 1`, history `[3, 4]`,
instant `5`. -/
theorem c10_witness :
    Throttle.size ⟨0, 1, [3, 4]⟩ 5 = (0, ⟨0, 1, []⟩) ∧
    Throttle.available ⟨0, 1, [3, 4]⟩ 5 = (true, ⟨0, 1, []⟩) ∧
    Throttle.accept ⟨0, 1, [3, 4]⟩ 5 = (AcceptResult.ok, ⟨0, 1, [5]⟩) :=
  c10_zero_window ⟨0, 1, [3, 4]⟩ 5 rfl (by decide)

end Throttle
